import Mathlib

/-!
Verification development for the web-research agent backend
(`backend/Intenet agent.py` and `backend/main.py`).

Strings from the Python source are modelled as `List Char` (named `Chars`
below) so that every operation is structurally recursive and evaluates
inside the kernel.  External collaborators (the Groq completion provider,
the Serper search transport, the httpx fetch transport, and the
BeautifulSoup text extractor) are passed in as oracles/parameters; the
code of the repository itself is translated function by function.

JSON parsing and pydantic-style validation (`model_validate_json`) are
modelled by a small executable JSON parser over `Chars` together with
per-schema validators that mirror the `Field` declarations of the source
(required fields, `ge=0.0, le=1.0` bounds, defaults).  Numeric JSON
values are modelled as rationals (every IEEE float is a rational, and the
bound checks `0 <= c <= 1` are exact on rationals).  Pydantic's lax
string-to-number coercion and exponent-form numerals are not modelled;
no theorem below depends on them.
-/

set_option linter.unusedVariables false

/-- Characters of the Python strings; a Python `str` is a `List Char`. -/
abbrev Chars := List Char

/-- The backquote character, written by code point to keep sources clean. -/
def bq : Char := Char.ofNat 96

/-- The double-quote character. -/
def dq : Char := Char.ofNat 34

/-- The backslash character. -/
def bslash : Char := Char.ofNat 92

/-- Opening curly brace. -/
def lbrace : Char := Char.ofNat 123

/-- Closing curly brace. -/
def rbrace : Char := Char.ofNat 125

/-- Opening square bracket. -/
def lbrack : Char := Char.ofNat 91

/-- Closing square bracket. -/
def rbrack : Char := Char.ofNat 93

/-- Newline. -/
def nlc : Char := Char.ofNat 10

/-- Horizontal tab. -/
def tabc : Char := Char.ofNat 9

/-- Carriage return. -/
def crc : Char := Char.ofNat 13

/-- Convert a Lean string literal to the `Chars` model. -/
def lit (s : String) : Chars := s.toList

/-- Decidable equality for `Except`, used to evaluate concrete runs. -/
instance {e a : Type} [DecidableEq e] [DecidableEq a] : DecidableEq (Except e a) :=
  fun x y =>
    match x, y with
    | .ok v, .ok w =>
      if h : v = w then .isTrue (congrArg Except.ok h)
      else .isFalse (fun hc => h (Except.ok.inj hc))
    | .error v, .error w =>
      if h : v = w then .isTrue (congrArg Except.error h)
      else .isFalse (fun hc => h (Except.error.inj hc))
    | .ok _, .error _ => .isFalse (fun hc => Except.noConfusion hc)
    | .error _, .ok _ => .isFalse (fun hc => Except.noConfusion hc)

/-- Whitespace as used by Python `str.strip` and by JSON, restricted to the
four characters that actually occur in this development. -/
def isSpace (c : Char) : Bool := c == ' ' || c == nlc || c == tabc || c == crc

/-- Python `str.lstrip` (whitespace only). -/
def strTrimLeft (s : Chars) : Chars := s.dropWhile isSpace

/-- Python `str.rstrip` (whitespace only), written head-recursively so that
proofs can follow the recursion. -/
def strTrimRight : Chars → Chars
  | [] => []
  | c :: rest =>
    match strTrimRight rest with
    | [] => if isSpace c then [] else [c]
    | r => c :: r

/-- Python `str.strip`. -/
def strTrim (s : Chars) : Chars := strTrimRight (strTrimLeft s)

/-- The markdown code-fence marker, three backquotes. -/
def fence : Chars := [bq, bq, bq]

/-- The four characters of the `json` language tag. -/
def jsonTag : Chars := lit "json"

/-- Python `s.startswith("\x60\x60\x60")`. -/
def startsWithFence : Chars → Bool
  | a :: b :: c :: _ => a == bq && b == bq && c == bq
  | _ => false

/-- Boolean test for an occurrence of the fence marker anywhere in `s`. -/
def containsFence : Chars → Bool
  | [] => false
  | a :: rest => startsWithFence (a :: rest) || containsFence rest

/-- Helper used by `splitFence`: prepend a character to the first chunk. -/
def splitConsHead (c : Char) : List Chars → List Chars
  | [] => [[c]]
  | s :: ss => (c :: s) :: ss

/-- Fuel-indexed worker for `splitFence`; the fuel only serves to make the
recursion structural, any fuel at least the length of the text gives the
same answer. -/
def splitFenceF : Nat → Chars → List Chars
  | 0, s => [s]
  | Nat.succ fuel, s =>
    match s with
    | a :: b :: c :: r =>
      if a == bq && b == bq && c == bq then [] :: splitFenceF fuel r
      else splitConsHead a (splitFenceF fuel (b :: c :: r))
    | s => [s]

/-- Python `s.split("\x60\x60\x60")`: split at each non-overlapping
occurrence of the fence marker, scanning left to right. -/
def splitFence (s : Chars) : List Chars := splitFenceF s.length s

/-- The fence-stripping logic of `llm_structured` (source lines 119-127):
strip the raw completion, if it starts with a fence take the second chunk
of the fence split, drop a leading `json` tag, and strip again. -/
def stripFences (s : Chars) : Chars :=
  let raw := strTrim s
  let raw :=
    if startsWithFence raw then
      let part := (splitFence raw).getD 1 []
      if jsonTag.isPrefixOf part then part.drop 4 else part
    else raw
  strTrim raw

/-- A JSON text enclosed in markdown code fences, with or without the
`json` language tag, as a provider that ignores the no-formatting
instruction would emit it. -/
def fenceWrap (tag : Bool) (J : Chars) : Chars :=
  fence ++ (if tag then jsonTag else []) ++ [nlc] ++ J ++ [nlc] ++ fence

/-- The JSON value model produced by `json.loads` inside
`model_validate_json`.  Objects are insertion-ordered association lists
(as CPython dicts are); a duplicate key overwrites the value in place,
matching `json.loads`. -/
inductive Json where
  | str : Chars → Json
  | num : ℚ → Json
  | bool : Bool → Json
  | null : Json
  | arr : List Json → Json
  | obj : List (Chars × Json) → Json

/-- CPython dict assignment `d[k] = v` on an insertion-ordered
association list: an existing key keeps its position and gets the new
value, a new key is appended. -/
def dictInsert {V : Type} (k : Chars) (v : V) : List (Chars × V) → List (Chars × V)
  | [] => [(k, v)]
  | (k', v') :: rest => if k' = k then (k, v) :: rest else (k', v') :: dictInsert k v rest

/-- CPython `d.get(k)` returning `none` when the key is absent. -/
def dictGet {V : Type} (k : Chars) : List (Chars × V) → Option V
  | [] => none
  | (k', v') :: rest => if k' = k then some v' else dictGet k rest

/-- Digit run to a natural number. -/
def digitsToNat (s : Chars) : Nat := s.foldl (fun n c => 10 * n + (c.toNat - 48)) 0

/-- Parse a JSON string body after the opening quote.  Escape sequences
are not modelled: a backslash makes the parse fail.  No string literal in
this development contains an escape. -/
def parseStrBody : Chars → Option (Chars × Chars)
  | [] => none
  | c :: rest =>
    if c = dq then some ([], rest)
    else if c = bslash then none
    else match parseStrBody rest with
      | some (s, r) => some (c :: s, r)
      | none => none

/-- Parse a JSON number (optional sign, digits, optional fraction).
Exponent forms are not modelled. -/
def parseNum (s : Chars) : Option (Json × Chars) :=
  let signed := match s with
    | c :: r => if c = '-' then (true, r) else (false, s)
    | [] => (false, s)
  let neg := signed.1
  let s1 := signed.2
  let ds := s1.takeWhile Char.isDigit
  let r1 := s1.dropWhile Char.isDigit
  if ds = [] then none
  else
    match r1 with
    | c :: r2 =>
      if c = '.' then
        let fs := r2.takeWhile Char.isDigit
        let r3 := r2.dropWhile Char.isDigit
        if fs = [] then none
        else
          let den : Nat := 10 ^ fs.length
          let numv : Int := (digitsToNat ds : Int) * den + (digitsToNat fs : Int)
          some (Json.num (mkRat (if neg then -numv else numv) den), r3)
      else
        some (Json.num (mkRat (if neg then -(digitsToNat ds : Int)
          else (digitsToNat ds : Int)) 1), r1)
    | [] =>
      some (Json.num (mkRat (if neg then -(digitsToNat ds : Int)
        else (digitsToNat ds : Int)) 1), [])

/-- JSON whitespace skipping (same character class as `isSpace`). -/
def skipWs (s : Chars) : Chars := s.dropWhile isSpace

mutual

/-- Fuel-indexed JSON value parser; the fuel bounds nesting depth (each
level consumes at least one character, so `length + 1` fuel suffices for
every input evaluated in this development). -/
def parseVal : Nat → Chars → Option (Json × Chars)
  | 0, _ => none
  | Nat.succ fuel, s =>
    let s := skipWs s
    match s with
    | [] => none
    | c :: rest =>
      if c = dq then
        match parseStrBody rest with
        | some (str, r) => some (Json.str str, r)
        | none => none
      else if c = lbrace then
        let s2 := skipWs rest
        match s2 with
        | c2 :: r2 => if c2 = rbrace then some (Json.obj [], r2) else parseMembers fuel s2 []
        | [] => none
      else if c = lbrack then
        let s2 := skipWs rest
        match s2 with
        | c2 :: r2 => if c2 = rbrack then some (Json.arr [], r2) else parseItems fuel s2 []
        | [] => none
      else if (lit "true").isPrefixOf s then some (Json.bool true, s.drop 4)
      else if (lit "false").isPrefixOf s then some (Json.bool false, s.drop 5)
      else if (lit "null").isPrefixOf s then some (Json.null, s.drop 4)
      else parseNum s

/-- Parse the members of a JSON object, positioned at a key. -/
def parseMembers : Nat → Chars → List (Chars × Json) → Option (Json × Chars)
  | 0, _, _ => none
  | Nat.succ fuel, s, acc =>
    let s := skipWs s
    match s with
    | [] => none
    | c :: rest =>
      if c = dq then
        match parseStrBody rest with
        | some (k, r1) =>
          match skipWs r1 with
          | c2 :: r3 =>
            if c2 = ':' then
              match parseVal fuel r3 with
              | some (v, r4) =>
                let acc' := dictInsert k v acc
                match skipWs r4 with
                | c3 :: r6 =>
                  if c3 = ',' then parseMembers fuel r6 acc'
                  else if c3 = rbrace then some (Json.obj acc', r6)
                  else none
                | [] => none
              | none => none
            else none
          | [] => none
        | none => none
      else none

/-- Parse the items of a JSON array, positioned at a value. -/
def parseItems : Nat → Chars → List Json → Option (Json × Chars)
  | 0, _, _ => none
  | Nat.succ fuel, s, acc =>
    match parseVal fuel s with
    | some (v, r) =>
      match skipWs r with
      | c :: r2 =>
        if c = ',' then parseItems fuel r2 (acc ++ [v])
        else if c = rbrack then some (Json.arr (acc ++ [v]), r2)
        else none
      | [] => none
    | none => none

end

/-- `json.loads` on a complete document: the whole text must be consumed
up to trailing whitespace. -/
def parseJson (s : Chars) : Option Json :=
  match parseVal (s.length + 1) s with
  | some (j, r) => if skipWs r = [] then some j else none
  | none => none

/-- Schema `SearchQuery` (source lines 54-57). -/
structure SearchQuery where
  query : Chars
  reason : Chars
deriving DecidableEq

/-- Schema `AgentPlan` (source lines 60-65): `needs_url_fetch` defaults to
`False` and `target_url` to `None`. -/
structure AgentPlan where
  goal : Chars
  search_queries : List SearchQuery
  needs_url_fetch : Bool
  target_url : Option Chars
deriving DecidableEq

/-- Schema `ExtractedFact` (source lines 68-72): `confidence` is declared
with `ge=0.0, le=1.0`. -/
structure ExtractedFact where
  fact : Chars
  source : Chars
  confidence : ℚ
deriving DecidableEq

/-- Schema `AgentAnswer` (source lines 75-82): `confidence` is declared
with `ge=0.0, le=1.0`; `follow_up_questions` defaults to the empty list. -/
structure AgentAnswer where
  query : Chars
  summary : Chars
  key_facts : List ExtractedFact
  sources : List Chars
  confidence : ℚ
  follow_up_questions : List Chars
deriving DecidableEq

/-- Schema `FactList`, defined locally inside `step_extract`
(source lines 267-268). -/
structure FactList where
  facts : List ExtractedFact
deriving DecidableEq

/-- A required pydantic `str` field: accepts exactly a JSON string
(pydantic v2 does not coerce other JSON types to `str`). -/
def asStr : Option Json → Option Chars
  | some (Json.str s) => some s
  | _ => none

/-- A required pydantic `float` field: a JSON number.  (Pydantic's lax
coercion of numeric strings is not modelled; coerced values would flow
into the same bound check.) -/
def asNum : Option Json → Option ℚ
  | some (Json.num q) => some q
  | _ => none

/-- List validation: every element must validate. -/
def mapOption {α β : Type} (f : α → Option β) : List α → Option (List β)
  | [] => some []
  | x :: xs =>
    match f x, mapOption f xs with
    | some y, some ys => some (y :: ys)
    | _, _ => none

/-- A pydantic `list[str]` field value. -/
def asStrList : Option Json → Option (List Chars)
  | some (Json.arr js) => mapOption (fun j => asStr (some j)) js
  | _ => none

/-- The `confidence` field of `ExtractedFact`/`AgentAnswer`: a number that
must satisfy the declared bounds `ge=0.0, le=1.0`, inclusive. -/
def vConfidence (o : Option Json) : Option ℚ :=
  match asNum o with
  | some q => if 0 ≤ q ∧ q ≤ 1 then some q else none
  | none => none

/-- Pydantic validation of `ExtractedFact` from a JSON value: all three
fields required, `confidence` bounded.  Extra keys are ignored (pydantic
default). -/
def validateExtractedFact (j : Json) : Option ExtractedFact :=
  match j with
  | Json.obj f =>
    match asStr (dictGet (lit "fact") f), asStr (dictGet (lit "source") f),
          vConfidence (dictGet (lit "confidence") f) with
    | some fa, some so, some co => some ⟨fa, so, co⟩
    | _, _, _ => none
  | _ => none

/-- Pydantic validation of `AgentAnswer` from a JSON value. -/
def validateAgentAnswer (j : Json) : Option AgentAnswer :=
  match j with
  | Json.obj f =>
    let fuq : Option (List Chars) :=
      match dictGet (lit "follow_up_questions") f with
      | none => some []
      | o => asStrList o
    match asStr (dictGet (lit "query") f), asStr (dictGet (lit "summary") f),
          (match dictGet (lit "key_facts") f with
           | some (Json.arr js) => mapOption validateExtractedFact js
           | _ => none),
          asStrList (dictGet (lit "sources") f),
          vConfidence (dictGet (lit "confidence") f), fuq with
    | some q, some su, some kf, some so, some co, some fu =>
      some ⟨q, su, kf, so, co, fu⟩
    | _, _, _, _, _, _ => none
  | _ => none

/-- Pydantic validation of `SearchQuery` from a JSON value. -/
def validateSearchQuery (j : Json) : Option SearchQuery :=
  match j with
  | Json.obj f =>
    match asStr (dictGet (lit "query") f), asStr (dictGet (lit "reason") f) with
    | some q, some r => some ⟨q, r⟩
    | _, _ => none
  | _ => none

/-- Pydantic validation of `AgentPlan` from a JSON value: `goal` and
`search_queries` required, `needs_url_fetch` defaults to `false`,
`target_url` defaults to `None` and also accepts JSON `null`. -/
def validateAgentPlan (j : Json) : Option AgentPlan :=
  match j with
  | Json.obj f =>
    let nuf : Option Bool :=
      match dictGet (lit "needs_url_fetch") f with
      | none => some false
      | some (Json.bool b) => some b
      | some _ => none
    let tu : Option (Option Chars) :=
      match dictGet (lit "target_url") f with
      | none => some none
      | some Json.null => some none
      | some (Json.str s) => some (some s)
      | some _ => none
    match asStr (dictGet (lit "goal") f),
          (match dictGet (lit "search_queries") f with
           | some (Json.arr js) => mapOption validateSearchQuery js
           | _ => none),
          nuf, tu with
    | some g, some sq, some b, some u => some ⟨g, sq, b, u⟩
    | _, _, _, _ => none
  | _ => none

/-- Pydantic validation of `FactList` from a JSON value. -/
def validateFactList (j : Json) : Option FactList :=
  match j with
  | Json.obj f =>
    match dictGet (lit "facts") f with
    | some (Json.arr js) => (mapOption validateExtractedFact js).map FactList.mk
    | _ => none
  | _ => none

/-- Pydantic `model_validate_json`: parse the whole text as JSON, then
validate against the schema. -/
def modelValidateJson {α : Type} (v : Json → Option α) (s : Chars) : Option α :=
  match parseJson s with
  | some j => v j
  | none => none

/-- The validate-or-raise tail of `llm_structured` (source lines 119-128):
strip fences from the raw completion text and run
`output_schema.model_validate_json`; a validation failure raises
(modelled as `Except.error`).  The error payload stands for the pydantic
`ValidationError`. -/
def llmAttempt {α : Type} (validate : Chars → Option α) (raw : Chars) : Except Chars α :=
  match validate (stripFences raw) with
  | some v => .ok v
  | none => .error (lit "ValidationError")

/-- `llm_structured` (source lines 91-128).  `provider n` is the raw text
the Completion Provider would return to the `n`-th
`chat.completions.create` call of this invocation; the source issues a
single call, validates its (fence-stripped) text once, and raises on
failure.  The second component counts the provider calls issued.  Prompt
assembly (system instruction, schema description, user prompt) does not
affect which calls are made or how their text is validated, and the
response text is already arbitrary via `provider`, so the prompt strings
are not tracked. -/
def llm_structured {α : Type} (provider : Nat → Chars)
    (validate : Chars → Option α) : Except Chars α × Nat :=
  (llmAttempt validate (provider 0), 1)

/-- One search result dict built by `search_web` (source lines 166-171):
`r.get("title", "")` etc. keep whatever JSON value was present, so the
fields stay `Json`. -/
structure SearchHit where
  title : Json
  snippet : Json
  link : Json

/-- The mock result returned when no Serper key is set
(source line 156). -/
def mockHit (query : Chars) : SearchHit :=
  ⟨Json.str (lit "Mock Result"),
   Json.str (lit "Mock search result for '" ++ query ++ lit "'"),
   Json.str (lit "https://example.com")⟩

/-- The body of `search_web`'s `try` block after the transport call
(source lines 164-172): `data.get("organic", [])` iterated into result
dicts.  Any shape that would raise in Python (`data` not a dict, the
`organic` value not a list, an element not a dict) yields `none`, which
the caller's `except` turns into `[]`.  Note a raised exception discards
all partial results, hence the all-or-nothing `mapOption`. -/
def extractOrganic (data : Json) : Option (List SearchHit) :=
  match data with
  | Json.obj fields =>
    match dictGet (lit "organic") fields with
    | none => some []
    | some (Json.arr rs) =>
      mapOption (fun r =>
        match r with
        | Json.obj rf =>
          some ⟨(dictGet (lit "title") rf).getD (Json.str []),
                (dictGet (lit "snippet") rf).getD (Json.str []),
                (dictGet (lit "link") rf).getD (Json.str [])⟩
        | _ => none) rs
    | some _ => none
  | _ => none

/-- `search_web` (source lines 149-177).  `resp` models the combined
outcome of `httpx.post` plus `resp.json()`: `Except.error` for a raised
transport/decode exception, `Except.ok data` for a decoded JSON body.
With an empty `SERPER_API_KEY` the transport is never consulted and the
mock result is returned; otherwise every exception path returns `[]`. -/
def search_web (serperKey : Chars) (resp : Except Chars Json) (query : Chars) : List SearchHit :=
  if serperKey = [] then [mockHit query]
  else
    match resp with
    | .error _ => []
    | .ok data => (extractOrganic data).getD []

/-- The failure placeholder of `fetch_url` (source line 200):
an f-string, not truncated. -/
def fetchErrorText (url e : Chars) : Chars :=
  lit "[ERROR fetching " ++ url ++ lit ": " ++ e ++ lit "]"

/-- `fetch_url` (source lines 180-200).  `extract` models the
BeautifulSoup/regex markup stripping (an external library); `transport`
models `httpx.get` returning a body or raising.  On success the extracted
text is truncated to `max_chars`; on any exception the placeholder string
is returned. -/
def fetch_url (extract : Chars → Chars) (transport : Except Chars Chars)
    (url : Chars) (max_chars : Nat) : Chars :=
  match transport with
  | .ok body => (extract body).take max_chars
  | .error e => fetchErrorText url e

/-- The key under which `step_execute` stores the optional page fetch
(source line 244). -/
def urlFetchKey : Chars := lit "__url_fetch__"

/-- A value of the `raw_results` dict: either a list of search hits or
the fetched page text. -/
inductive RawVal where
  | searchRes : List SearchHit → RawVal
  | fetchRes : Chars → RawVal

/-- Python truthiness of `plan.needs_url_fetch and plan.target_url`
(source line 242): the fetch runs only when the flag is set and the URL
is neither `None` nor empty. -/
def fetchCond (plan : AgentPlan) : Bool :=
  plan.needs_url_fetch &&
    (match plan.target_url with
     | some u => !u.isEmpty
     | none => false)

/-- The `(key, value)` pairs inserted by `step_execute`'s search loop, in
order; the `i`-th loop iteration issues the `i`-th transport call. -/
def execInserts (serperKey : Chars) (searchT : Nat → Except Chars Json)
    (tasks : List SearchQuery) : List (Chars × RawVal) :=
  tasks.enum.map (fun p => (p.2.query, RawVal.searchRes (search_web serperKey (searchT p.1) p.2.query)))

/-- `step_execute` (source lines 228-246): run every planned search,
storing results in a dict keyed by the query string (so a repeated query
overwrites the earlier entry), then optionally fetch the target URL under
`"__url_fetch__"` (the source calls `fetch_url` with its default
`max_chars = 4000`). -/
def step_execute (serperKey : Chars) (searchT : Nat → Except Chars Json)
    (fetchT : Except Chars Chars) (extract : Chars → Chars)
    (plan : AgentPlan) : List (Chars × RawVal) :=
  let d := (execInserts serperKey searchT plan.search_queries).foldl
    (fun d kv => dictInsert kv.1 kv.2 d) []
  if fetchCond plan then
    dictInsert urlFetchKey
      (RawVal.fetchRes (fetch_url extract fetchT (plan.target_url.getD []) 4000)) d
  else d

/-- The deduplicated known-source list `list({f.source for f in facts})`
computed by `step_synthesize` (source line 293) for its prompt.  CPython
set iteration order is unspecified; `List.dedup` supplies one
duplicate-free enumeration of the same elements, which is all any proof
below uses. -/
def synthSources (facts : List ExtractedFact) : List Chars :=
  (facts.map (fun f => f.source)).dedup

/-- `step_synthesize` (source lines 286-310): one `llm_structured` call
validating against `AgentAnswer`; the validated object is returned
unchanged.  `resp` is the Completion Provider's raw response for this
call; the prompt (query, dumped facts, `synthSources`) does not constrain
the oracle response. -/
def step_synthesize (resp : Chars) (query : Chars) (facts : List ExtractedFact) :
    Except Chars AgentAnswer :=
  llmAttempt (modelValidateJson validateAgentAnswer) resp

/-- Which pipeline step raised the `ValidationError` that propagated out
of `run_agent` (in Python, visible as the step in the traceback). -/
inductive AgentError where
  | planFailed : Chars → AgentError
  | extractFailed : Chars → AgentError
  | synthFailed : Chars → AgentError
deriving DecidableEq

/-- `run_agent` (source lines 317-336): the fixed chain
plan → execute → extract → synthesize with no exception handling, so the
first raising step aborts the run.  `resps n` is the Completion
Provider's raw text for the `n`-th structured call of the run; the second
component counts the structured calls issued before returning. -/
def run_agent (resps : Nat → Chars) (serperKey : Chars)
    (searchT : Nat → Except Chars Json) (fetchT : Except Chars Chars)
    (extract : Chars → Chars) (query : Chars) :
    Except AgentError AgentAnswer × Nat :=
  match llmAttempt (modelValidateJson validateAgentPlan) (resps 0) with
  | .error e => (.error (.planFailed e), 1)
  | .ok plan =>
    let raw_results := step_execute serperKey searchT fetchT extract plan
    match llmAttempt (modelValidateJson validateFactList) (resps 1) with
    | .error e => (.error (.extractFailed e), 2)
    | .ok fact_list =>
      match step_synthesize (resps 2) query fact_list.facts with
      | .error e => (.error (.synthFailed e), 3)
      | .ok answer => (.ok answer, 3)

/-- `os.getenv(name, default)` over an environment oracle. -/
def getenvD (env : Chars → Option Chars) (name dflt : Chars) : Chars :=
  (env name).getD dflt

/-- Source line 44: `GROQ_API_KEY = os.getenv("GROQ_API_KEY",
"YOUR_GROQ_API_KEY_HERE")` — a missing variable silently becomes the
placeholder string. -/
def groqApiKey (env : Chars → Option Chars) : Chars :=
  getenvD env (lit "GROQ_API_KEY") (lit "YOUR_GROQ_API_KEY_HERE")

/-- Model of the `groq` client constructor (external library): it raises
only when the api key argument resolves to `None`; any string, including
the placeholder, is accepted without contacting the network. -/
def groqInit (apiKey : Option Chars) : Except Chars Unit :=
  match apiKey with
  | none => .error (lit "The api_key client option must be set")
  | some _ => .ok ()

/-- Module initialisation of the agent file as far as credentials are
concerned (source lines 44 and 89): resolve the key, construct the
client.  Returns the resolved key on success. -/
def agentStartup (env : Chars → Option Chars) : Except Chars Chars :=
  match groqInit (some (groqApiKey env)) with
  | .ok _ => .ok (groqApiKey env)
  | .error e => .error e

/-- The value stored under `k` by the last insertion for `k` in the pair
list `l` (used to reason about dict-building loops). -/
def lastVal {V : Type} (k : Chars) : List (Chars × V) → Option V
  | [] => none
  | kv :: rest =>
    match lastVal k rest with
    | some v => some v
    | none => if kv.1 = k then some kv.2 else none

/-- The key list of a dict, in insertion order. -/
def dictKeys {V : Type} (d : List (Chars × V)) : List Chars := d.map Prod.fst

/-- Generalisation of `execInserts` to a loop starting at transport call
index `n`, for induction. -/
def insertsFrom (serperKey : Chars) (searchT : Nat → Except Chars Json)
    (n : Nat) (tasks : List SearchQuery) : List (Chars × RawVal) :=
  (tasks.enumFrom n).map
    (fun p => (p.2.query, RawVal.searchRes (search_web serperKey (searchT p.1) p.2.query)))

/-- A syntactically valid `AgentPlan` response text. -/
def samplePlanJson : Chars :=
  lit "\x7b\"goal\": \"g\", \"search_queries\": [\x7b\"query\": \"a\", \"reason\": \"r\"\x7d]\x7d"

/-- A syntactically valid `FactList` response text. -/
def sampleFactsJson : Chars :=
  lit "\x7b\"facts\": [\x7b\"fact\": \"f\", \"source\": \"s\", \"confidence\": 0.9\x7d]\x7d"

/-- A syntactically valid `AgentAnswer` response text. -/
def sampleAnswerJson : Chars :=
  lit "\x7b\"query\": \"q\", \"summary\": \"s\", \"key_facts\": [], \"sources\": [], \"confidence\": 1\x7d"

/-- A completion oracle answering the three structured calls of a run
with valid texts. -/
def sampleOracle : Nat → Chars :=
  fun n => if n = 0 then samplePlanJson else if n = 1 then sampleFactsJson else sampleAnswerJson

/-- The `AgentAnswer` validated from `sampleAnswerJson`. -/
def sampleAnswer : AgentAnswer := ⟨lit "q", lit "s", [], [], 1, []⟩

/-- A schema-valid `AgentAnswer` response whose `sources` list repeats a
URL. -/
def dupSourcesJson : Chars :=
  lit "\x7b\"query\": \"q\", \"summary\": \"s\", \"key_facts\": [], \"sources\": [\"https://a\", \"https://a\"], \"confidence\": 1\x7d"

/-- The `AgentAnswer` validated from `dupSourcesJson`. -/
def dupSourcesAnswer : AgentAnswer :=
  ⟨lit "q", lit "s", [], [lit "https://a", lit "https://a"], 1, []⟩

/-- A schema-valid `ExtractedFact` JSON text whose `fact` string contains
the three-backquote fence marker. -/
def fencedFactJson : Chars :=
  lit "\x7b\"fact\": \"```\", \"source\": \"s\", \"confidence\": 0.5\x7d"

/-- The `ExtractedFact` validated from `fencedFactJson`. -/
def fencedFact : ExtractedFact := ⟨fence, lit "s", mkRat 1 2⟩

/-- An `ExtractedFact` JSON text free of fence markers. -/
def plainFactJson : Chars :=
  lit "\x7b\"fact\": \"f\", \"source\": \"s\", \"confidence\": 1\x7d"

/-- A plan whose single search task is itself named `"__url_fetch__"`,
with the URL fetch enabled. -/
def collidingPlan : AgentPlan :=
  ⟨lit "g", [⟨urlFetchKey, lit "r"⟩], true, some (lit "https://t")⟩

/-- A plan with two search tasks sharing the query `"__url_fetch__"`,
with the URL fetch enabled. -/
def collidingPlan2 : AgentPlan :=
  ⟨lit "g", [⟨urlFetchKey, lit "r1"⟩, ⟨urlFetchKey, lit "r2"⟩], true, some (lit "https://t")⟩

/-- A plan with one ordinary search task and no URL fetch. -/
def simplePlan : AgentPlan := ⟨lit "g", [⟨lit "a", lit "r"⟩], false, none⟩

/-- A search transport that raises on every call. -/
def downSearch : Nat → Except Chars Json := fun _ => .error (lit "connection refused")

/-! ### Validator lemmas -/

theorem vConfidence_bounds {o : Option Json} {q : ℚ}
    (h : vConfidence o = some q) : 0 ≤ q ∧ q ≤ 1 := by
  unfold vConfidence at h
  split at h
  · split at h
    · cases h; assumption
    · cases h
  · cases h

theorem validateExtractedFact_bounds {j : Json} {f : ExtractedFact}
    (h : validateExtractedFact j = some f) : 0 ≤ f.confidence ∧ f.confidence ≤ 1 := by
  unfold validateExtractedFact at h
  split at h
  · split at h
    · rename_i heq
      cases h
      exact vConfidence_bounds heq
    · cases h
  · cases h

theorem mapOption_forall {α β : Type} {f : α → Option β} {P : β → Prop}
    (hP : ∀ x y, f x = some y → P y) :
    ∀ (l : List α) (ys : List β), mapOption f l = some ys → ∀ y ∈ ys, P y := by
  intro l
  induction l with
  | nil => intro ys h y hy; cases h; cases hy
  | cons x xs ih =>
    intro ys h y hy
    unfold mapOption at h
    split at h
    · rename_i hx hxs
      cases h
      rcases List.mem_cons.mp hy with h1 | h1
      · exact h1 ▸ hP x _ hx
      · exact ih _ hxs y h1
    · cases h

theorem validateAgentAnswer_bounds {j : Json} {a : AgentAnswer}
    (h : validateAgentAnswer j = some a) :
    (0 ≤ a.confidence ∧ a.confidence ≤ 1) ∧
      ∀ f ∈ a.key_facts, 0 ≤ f.confidence ∧ f.confidence ≤ 1 := by
  unfold validateAgentAnswer at h
  split at h <;> try cases h
  split at h <;> split at h <;> dsimp only at h <;> split at h <;> try cases h
  all_goals dsimp only
  all_goals
    first
    | (refine ⟨vConfidence_bounds (by assumption), fun f hf =>
        mapOption_forall (fun x y hy => validateExtractedFact_bounds hy) _ _ (by assumption) f hf⟩)
    | simp_all

theorem vConfidence_none_of_out {q : ℚ} (hout : q < 0 ∨ 1 < q) :
    vConfidence (some (Json.num q)) = none := by
  have hno : ¬ (0 ≤ q ∧ q ≤ 1) := by
    rcases hout with h | h <;> intro hc <;> rcases hc with ⟨h0, h1⟩ <;> linarith
  simp [vConfidence, asNum, hno]

theorem validateExtractedFact_rejects {fields : List (Chars × Json)} {q : ℚ}
    (hq : dictGet (lit "confidence") fields = some (Json.num q))
    (hout : q < 0 ∨ 1 < q) :
    validateExtractedFact (Json.obj fields) = none := by
  have hc : vConfidence (dictGet (lit "confidence") fields) = none := by
    rw [hq]; exact vConfidence_none_of_out hout
  unfold validateExtractedFact
  dsimp only
  rw [hc]
  split <;> simp_all

theorem validateAgentAnswer_rejects {fields : List (Chars × Json)} {q : ℚ}
    (hq : dictGet (lit "confidence") fields = some (Json.num q))
    (hout : q < 0 ∨ 1 < q) :
    validateAgentAnswer (Json.obj fields) = none := by
  have hc : vConfidence (dictGet (lit "confidence") fields) = none := by
    rw [hq]; exact vConfidence_none_of_out hout
  unfold validateAgentAnswer
  dsimp only
  rw [hc]
  split <;> simp_all

/-! ### Dictionary lemmas -/

theorem dictGet_insert {V : Type} (k k' : Chars) (v : V) (d : List (Chars × V)) :
    dictGet k (dictInsert k' v d) = if k' = k then some v else dictGet k d := by
  induction d with
  | nil => simp [dictInsert, dictGet]
  | cons kv rest ih =>
    obtain ⟨a, b⟩ := kv
    by_cases hak : a = k'
    · subst hak
      simp only [dictInsert, if_pos rfl, dictGet]
      by_cases hk : a = k <;> simp [hk]
    · simp only [dictInsert, if_neg hak, dictGet]
      by_cases hk : a = k
      · subst hk
        have : ¬ k' = a := fun hcc => hak hcc.symm
        simp [this]
      · simp [hk, ih]

theorem dictGet_foldl_insert {V : Type} (l : List (Chars × V)) :
    ∀ (d : List (Chars × V)) (k : Chars),
    dictGet k (l.foldl (fun d kv => dictInsert kv.1 kv.2 d) d) =
      match lastVal k l with
      | some v => some v
      | none => dictGet k d := by
  induction l with
  | nil => intro d k; rfl
  | cons kv rest ih =>
    intro d k
    simp only [List.foldl_cons, lastVal]
    rw [ih]
    rcases hlv : lastVal k rest with _ | v
    · simp only [hlv, dictGet_insert]
      by_cases hk : kv.1 = k <;> simp [hk]
    · simp [hlv]

theorem lastVal_none_iff {V : Type} (k : Chars) (l : List (Chars × V)) :
    lastVal k l = none ↔ k ∉ l.map Prod.fst := by
  induction l with
  | nil => simp [lastVal]
  | cons kv rest ih =>
    simp only [lastVal, List.map_cons, List.mem_cons]
    rcases hlv : lastVal k rest with _ | v <;> rw [hlv] at ih
    · by_cases hk : kv.1 = k
      · subst hk
        rw [if_pos rfl]
        constructor
        · intro hcc; cases hcc
        · intro hcc; exact (hcc (Or.inl rfl)).elim
      · rw [if_neg hk]
        constructor
        · intro _ hcc
          rcases hcc with h1 | h1
          · exact hk h1.symm
          · exact (ih.mp rfl) h1
        · intro _; rfl
    · constructor
      · intro hcc; cases hcc
      · intro hcc
        have hx := ih.mpr fun hm => hcc (Or.inr hm)
        cases hx

theorem lastVal_all_eq {V : Type} (k : Chars) (v : V) (l : List (Chars × V))
    (hall : ∀ p ∈ l, p.2 = v) (hm : k ∈ l.map Prod.fst) :
    lastVal k l = some v := by
  induction l with
  | nil => cases hm
  | cons kv rest ih =>
    rw [List.map_cons] at hm
    simp only [lastVal]
    rcases hlv : lastVal k rest with _ | w
    · rcases List.mem_cons.mp hm with h1 | h1
      · rw [if_pos h1.symm]
        exact congrArg some (hall kv (List.mem_cons_self kv rest))
      · exact absurd ((lastVal_none_iff k rest).mp hlv) (fun hno => hno h1)
    · have hmem : k ∈ rest.map Prod.fst := by
        by_contra hno
        rw [← lastVal_none_iff k rest] at hno
        rw [hlv] at hno; cases hno
      have hrec := ih (fun p hp => hall p (List.mem_cons_of_mem kv hp)) hmem
      rw [hlv] at hrec
      exact hrec

theorem insertsFrom_cons (serperKey : Chars) (searchT : Nat → Except Chars Json)
    (n : Nat) (t : SearchQuery) (rest : List SearchQuery) :
    insertsFrom serperKey searchT n (t :: rest) =
      (t.query, RawVal.searchRes (search_web serperKey (searchT n) t.query)) ::
        insertsFrom serperKey searchT (n + 1) rest := by
  simp [insertsFrom, List.enumFrom]

theorem insertsFrom_keys (serperKey : Chars) (searchT : Nat → Except Chars Json)
    (n : Nat) (tasks : List SearchQuery) :
    (insertsFrom serperKey searchT n tasks).map Prod.fst =
      tasks.map (fun t => t.query) := by
  induction tasks generalizing n with
  | nil => rfl
  | cons t rest ih => rw [insertsFrom_cons, List.map_cons, List.map_cons, ih]

theorem execInserts_eq (serperKey : Chars) (searchT : Nat → Except Chars Json)
    (tasks : List SearchQuery) :
    execInserts serperKey searchT tasks = insertsFrom serperKey searchT 0 tasks := rfl

theorem lastVal_insertsFrom (serperKey : Chars) (searchT : Nat → Except Chars Json)
    (tasks : List SearchQuery) (n i : Nat) (sq : SearchQuery)
    (hi : tasks[i]? = some sq)
    (hlast : ∀ j sq', tasks[j]? = some sq' → sq'.query = sq.query → j ≤ i) :
    lastVal sq.query (insertsFrom serperKey searchT n tasks) =
      some (RawVal.searchRes (search_web serperKey (searchT (n + i)) sq.query)) := by
  induction tasks generalizing n i with
  | nil => cases hi
  | cons t rest ih =>
    rw [insertsFrom_cons]
    simp only [lastVal]
    cases i with
    | zero =>
      have ht : t = sq := by
        rw [List.getElem?_cons_zero] at hi; cases hi; rfl
      subst ht
      have hnone : lastVal t.query (insertsFrom serperKey searchT (n + 1) rest) = none := by
        rw [lastVal_none_iff, insertsFrom_keys]
        intro hmem
        rcases List.mem_map.mp hmem with ⟨sq', hsq', hq⟩
        rcases List.getElem?_of_mem hsq' with ⟨j', hj'⟩
        have := hlast (j' + 1) sq' (by rw [List.getElem?_cons_succ]; exact hj') hq
        omega
      rw [hnone, if_pos rfl, Nat.add_zero]
    | succ i' =>
      rw [List.getElem?_cons_succ] at hi
      have hlast' : ∀ j sq', rest[j]? = some sq' → sq'.query = sq.query → j ≤ i' := by
        intro j sq' hj hq
        have := hlast (j + 1) sq' (by rw [List.getElem?_cons_succ]; exact hj) hq
        omega
      have hrec := ih (n + 1) i' hi hlast'
      rw [hrec]
      have harith : n + 1 + i' = n + (i' + 1) := by omega
      rw [harith]

theorem dictKeys_insert {V : Type} (k : Chars) (v : V) (d : List (Chars × V)) :
    dictKeys (dictInsert k v d) =
      if k ∈ dictKeys d then dictKeys d else dictKeys d ++ [k] := by
  induction d with
  | nil => simp [dictKeys, dictInsert]
  | cons kv rest ih =>
    obtain ⟨a, b⟩ := kv
    by_cases hak : a = k
    · subst hak
      simp only [dictInsert, eq_self_iff_true, if_true, dictKeys, List.map_cons]
      rw [if_pos (List.mem_cons_self _ _)]
    · simp only [dictInsert, if_neg hak, dictKeys, List.map_cons] at ih ⊢
      have hne : ¬ k = a := fun hcc => hak hcc.symm
      rw [ih]
      by_cases hmem : k ∈ rest.map Prod.fst
      · simp [hmem, hne]
      · simp [hmem, hne]

theorem nodup_dictKeys_insert {V : Type} (k : Chars) (v : V) (d : List (Chars × V))
    (h : (dictKeys d).Nodup) : (dictKeys (dictInsert k v d)).Nodup := by
  rw [dictKeys_insert]
  by_cases hmem : k ∈ dictKeys d
  · simpa [hmem]
  · simp only [hmem, if_false]
    simpa [List.nodup_append] using ⟨h, fun hcc => hmem hcc⟩

theorem nodup_dictKeys_foldl {V : Type} (l : List (Chars × V)) :
    ∀ d : List (Chars × V), (dictKeys d).Nodup →
      (dictKeys (l.foldl (fun d kv => dictInsert kv.1 kv.2 d) d)).Nodup := by
  induction l with
  | nil => intro d h; exact h
  | cons kv rest ih =>
    intro d h
    rw [List.foldl_cons]
    exact ih _ (nodup_dictKeys_insert kv.1 kv.2 d h)

theorem dictGet_isSome_iff {V : Type} (k : Chars) (d : List (Chars × V)) :
    (dictGet k d).isSome = true ↔ k ∈ dictKeys d := by
  induction d with
  | nil => simp [dictGet, dictKeys]
  | cons kv rest ih =>
    obtain ⟨a, b⟩ := kv
    simp only [dictGet, dictKeys, List.map_cons, List.mem_cons]
    simp only [dictKeys] at ih
    by_cases hak : a = k
    · subst hak
      rw [if_pos rfl]
      exact ⟨fun _ => Or.inl rfl, fun _ => rfl⟩
    · have hne : ¬ k = a := fun hcc => hak hcc.symm
      rw [if_neg hak]
      constructor
      · intro hh; exact Or.inr (ih.mp hh)
      · intro hh
        rcases hh with h1 | h1
        · exact absurd h1 hne
        · exact ih.mpr h1

theorem dictGet_foldl_insert_nil {V : Type} (l : List (Chars × V)) (k : Chars) :
    dictGet k (l.foldl (fun d kv => dictInsert kv.1 kv.2 d) []) = lastVal k l := by
  rw [dictGet_foldl_insert]
  rcases h : lastVal k l with _ | v <;> rfl

theorem step_execute_get (serperKey : Chars) (searchT : Nat → Except Chars Json)
    (fetchT : Except Chars Chars) (extract : Chars → Chars) (plan : AgentPlan) (k : Chars) :
    dictGet k (step_execute serperKey searchT fetchT extract plan) =
      if fetchCond plan = true ∧ k = urlFetchKey
      then some (RawVal.fetchRes (fetch_url extract fetchT (plan.target_url.getD []) 4000))
      else lastVal k (execInserts serperKey searchT plan.search_queries) := by
  unfold step_execute
  by_cases hfc : fetchCond plan
  · rw [if_pos hfc, dictGet_insert]
    by_cases hk : urlFetchKey = k
    · rw [if_pos hk, if_pos ⟨hfc, hk.symm⟩]
    · rw [if_neg hk, if_neg (fun hcc => hk hcc.2.symm)]
      exact dictGet_foldl_insert_nil _ _
  · rw [if_neg hfc, if_neg (fun hcc => hfc hcc.1)]
    exact dictGet_foldl_insert_nil _ _

theorem step_execute_keys_nodup (serperKey : Chars) (searchT : Nat → Except Chars Json)
    (fetchT : Except Chars Chars) (extract : Chars → Chars) (plan : AgentPlan) :
    (dictKeys (step_execute serperKey searchT fetchT extract plan)).Nodup := by
  unfold step_execute
  have hbase : (dictKeys ((execInserts serperKey searchT plan.search_queries).foldl
      (fun d kv => dictInsert kv.1 kv.2 d) [])).Nodup :=
    nodup_dictKeys_foldl _ [] (by simp [dictKeys])
  by_cases hfc : fetchCond plan
  · rw [if_pos hfc]
    exact nodup_dictKeys_insert _ _ _ hbase
  · rw [if_neg hfc]
    exact hbase

theorem step_execute_isSome_iff (serperKey : Chars) (searchT : Nat → Except Chars Json)
    (fetchT : Except Chars Chars) (extract : Chars → Chars) (plan : AgentPlan) (k : Chars) :
    (dictGet k (step_execute serperKey searchT fetchT extract plan)).isSome = true ↔
      (k ∈ plan.search_queries.map (fun t => t.query) ∨
        (fetchCond plan = true ∧ k = urlFetchKey)) := by
  rw [step_execute_get]
  by_cases hc : fetchCond plan = true ∧ k = urlFetchKey
  · rw [if_pos hc]
    simp only [Option.isSome_some, true_iff]
    exact Or.inr hc
  · rw [if_neg hc]
    constructor
    · intro hs
      left
      rcases hlv : lastVal k (execInserts serperKey searchT plan.search_queries) with _ | v
      · rw [hlv] at hs; cases hs
      · have : k ∈ (execInserts serperKey searchT plan.search_queries).map Prod.fst := by
          by_contra hno
          rw [← lastVal_none_iff] at hno
          rw [hlv] at hno; cases hno
        rwa [execInserts_eq, insertsFrom_keys] at this
    · intro hm
      rcases hm with hm | hm
      · rcases hlv : lastVal k (execInserts serperKey searchT plan.search_queries) with _ | v
        · exfalso
          have := (lastVal_none_iff k _).mp hlv
          rw [execInserts_eq, insertsFrom_keys] at this
          exact this hm
        · rfl
      · exact absurd hm hc

/-! ### Fence and trim lemmas -/

theorem splitFenceF_irrel : ∀ (f1 : Nat) (s : Chars) (f2 : Nat),
    s.length ≤ f1 → s.length ≤ f2 → splitFenceF f1 s = splitFenceF f2 s := by
  intro f1
  induction f1 with
  | zero =>
    intro s f2 h1 h2
    have hs : s = [] := List.eq_nil_of_length_eq_zero (Nat.le_zero.mp h1)
    subst hs
    cases f2 <;> rfl
  | succ f ih =>
    intro s f2 h1 h2
    cases f2 with
    | zero =>
      have hs : s = [] := List.eq_nil_of_length_eq_zero (Nat.le_zero.mp h2)
      subst hs
      rfl
    | succ g =>
      rcases s with _ | ⟨a, s1⟩
      · rfl
      rcases s1 with _ | ⟨b, s2⟩
      · rfl
      rcases s2 with _ | ⟨c, r⟩
      · rfl
      show (if a == bq && b == bq && c == bq then [] :: splitFenceF f r
        else splitConsHead a (splitFenceF f (b :: c :: r))) =
        (if a == bq && b == bq && c == bq then [] :: splitFenceF g r
        else splitConsHead a (splitFenceF g (b :: c :: r)))
      have hl1 : r.length + 3 ≤ f + 1 := by simpa using h1
      have hl2 : r.length + 3 ≤ g + 1 := by simpa using h2
      by_cases hc2 : (a == bq && b == bq && c == bq) = true
      · rw [if_pos hc2, if_pos hc2, ih r g (by omega) (by omega)]
      · rw [if_neg hc2, if_neg hc2,
          ih (b :: c :: r) g (by simp only [List.length_cons]; omega)
            (by simp only [List.length_cons]; omega)]

theorem splitFence_eq3 (a b c : Char) (r : Chars) :
    splitFence (a :: b :: c :: r) =
      if a == bq && b == bq && c == bq then [] :: splitFence r
      else splitConsHead a (splitFence (b :: c :: r)) := by
  show splitFenceF ((a :: b :: c :: r).length) (a :: b :: c :: r) = _
  have hlen : (a :: b :: c :: r).length = (r.length + 2) + 1 := by simp
  rw [hlen]
  show (if a == bq && b == bq && c == bq then [] :: splitFenceF (r.length + 2) r
    else splitConsHead a (splitFenceF (r.length + 2) (b :: c :: r))) = _
  by_cases hc2 : (a == bq && b == bq && c == bq) = true
  · rw [if_pos hc2, if_pos hc2,
      splitFenceF_irrel (r.length + 2) r r.length (by omega) (Nat.le_refl _)]
    rfl
  · rw [if_neg hc2, if_neg hc2]
    rfl

theorem startsWithFence_cons (x : Char) (s : Chars) :
    startsWithFence (x :: s) = ((x == bq) && decide (s.take 2 = [bq, bq])) := by
  match s with
  | [] => simp [startsWithFence]
  | [b] => simp [startsWithFence, List.take]
  | b :: c :: r =>
    show (x == bq && b == bq && c == bq) =
      ((x == bq) && decide ((b :: c :: r).take 2 = [bq, bq]))
    have htk : ((b :: c :: r).take 2) = [b, c] := by simp [List.take]
    rw [htk]
    cases hb : b == bq <;> cases hc : c == bq <;> simp_all

theorem cf_cons (x : Char) (s : Chars) :
    containsFence (x :: s) =
      (((x == bq) && decide (s.take 2 = [bq, bq])) || containsFence s) := by
  show (startsWithFence (x :: s) || containsFence s) = _
  rw [startsWithFence_cons]

theorem cf_tail {x : Char} {s : Chars} (h : containsFence (x :: s) = false) :
    containsFence s = false := by
  rw [cf_cons, Bool.or_eq_false_iff] at h
  exact h.2

theorem take2_fence_shape {s : Chars} (h : decide (s.take 2 = [bq, bq]) = true) :
    ∃ t, s = bq :: bq :: t := by
  match s with
  | [] => simp at h
  | [y] => simp [List.take] at h
  | y :: z :: t =>
    simp only [List.take, decide_eq_true_eq, List.cons.injEq, and_true] at h
    exact ⟨t, by rw [h.1, h.2]⟩

theorem cf_append_right {a b : Chars} (ha : containsFence a = false)
    (hb : containsFence b = false)
    (hhead : ∀ x, b.head? = some x → x ≠ bq) :
    containsFence (a ++ b) = false := by
  induction a with
  | nil => exact hb
  | cons x a1 ih =>
    rw [List.cons_append, cf_cons, Bool.or_eq_false_iff]
    have ha1 : containsFence a1 = false := cf_tail ha
    refine ⟨?_, ih ha1⟩
    rcases a1 with _ | ⟨y, a2⟩
    · rcases b with _ | ⟨h1, t1⟩
      · simp
      · have hh1 : h1 ≠ bq := hhead h1 rfl
        simp [List.take, hh1]
    · rcases a2 with _ | ⟨z, a3⟩
      · rcases b with _ | ⟨h1, t1⟩
        · simp [List.take]
        · have hh1 : h1 ≠ bq := hhead h1 rfl
          simp [List.take, hh1]
      · rw [cf_cons, Bool.or_eq_false_iff] at ha
        have htk : ((y :: z :: a3) ++ b).take 2 = (y :: z :: a3).take 2 := by
          simp [List.take]
        rw [htk]
        exact ha.1

theorem cf_append_left {a b : Chars} (ha : containsFence a = false)
    (hb : containsFence b = false)
    (hlast : ∀ x, a.getLast? = some x → x ≠ bq) :
    containsFence (a ++ b) = false := by
  induction a with
  | nil => exact hb
  | cons x a1 ih =>
    rw [List.cons_append, cf_cons, Bool.or_eq_false_iff]
    have ha1 : containsFence a1 = false := cf_tail ha
    have hlast1 : ∀ y, a1.getLast? = some y → y ≠ bq := by
      intro y hy
      apply hlast
      rcases a1 with _ | ⟨d, a2⟩
      · cases hy
      · rw [List.getLast?_cons_cons]; exact hy
    refine ⟨?_, ih ha1 hlast1⟩
    rcases a1 with _ | ⟨y, a2⟩
    · have hx : x ≠ bq := hlast x (by simp)
      simp [hx]
    · rcases a2 with _ | ⟨z, a3⟩
      · have hy : y ≠ bq := hlast y (by simp)
        rcases b with _ | ⟨h1, t1⟩ <;> simp [List.take, hy]
      · rw [cf_cons, Bool.or_eq_false_iff] at ha
        have htk : ((y :: z :: a3) ++ b).take 2 = (y :: z :: a3).take 2 := by
          simp [List.take]
        rw [htk]
        exact ha.1

theorem cf_prefix {a b : Chars} (h : containsFence (a ++ b) = false) :
    containsFence a = false := by
  induction a with
  | nil => rfl
  | cons x a1 ih =>
    rw [List.cons_append, cf_cons, Bool.or_eq_false_iff] at h
    rw [cf_cons, Bool.or_eq_false_iff]
    refine ⟨?_, ih h.2⟩
    by_cases hx : (x == bq) = true
    · rw [hx, Bool.true_and]
      by_contra hd
      rw [Bool.not_eq_false] at hd
      rcases take2_fence_shape hd with ⟨t, ht⟩
      subst ht
      have h1 := h.1
      rw [hx, Bool.true_and] at h1
      simp [List.take] at h1
    · have hx2 : (x == bq) = false := by rwa [Bool.not_eq_true] at hx
      rw [hx2, Bool.false_and]

theorem cf_of_prefix {u v : Chars} (h : containsFence u = false)
    (hp : v <+: u) : containsFence v = false := by
  rcases hp with ⟨t, rfl⟩
  exact cf_prefix h

theorem cf_dropWhile {p : Char → Bool} {s : Chars} (h : containsFence s = false) :
    containsFence (s.dropWhile p) = false := by
  induction s with
  | nil => rfl
  | cons c s1 ih =>
    rw [List.dropWhile_cons]
    by_cases hp : p c = true
    · rw [if_pos hp]
      exact ih (cf_tail h)
    · rw [if_neg hp]
      exact h

theorem strTrimRight_isPrefixOf (s : Chars) : strTrimRight s <+: s := by
  induction s with
  | nil => exact List.nil_prefix
  | cons c s1 ih =>
    show (match strTrimRight s1 with
      | [] => if isSpace c then [] else [c]
      | r => c :: r) <+: c :: s1
    rcases htr : strTrimRight s1 with _ | ⟨r0, r1⟩
    · by_cases hsp : isSpace c = true
      · simp only [hsp, if_true]
        exact List.nil_prefix
      · simp only [hsp, if_false]
        exact ⟨s1, rfl⟩
    · rw [htr] at ih
      exact List.cons_prefix_cons.mpr ⟨rfl, ih⟩

theorem strTrimRight_getLast (u : Chars) :
    ∀ x, (strTrimRight u).getLast? = some x → isSpace x = false := by
  induction u with
  | nil => intro x hx; cases hx
  | cons c u1 ih =>
    intro x hx
    rw [show strTrimRight (c :: u1) = (match strTrimRight u1 with
      | [] => if isSpace c then [] else [c]
      | r => c :: r) from rfl] at hx
    rcases htr : strTrimRight u1 with _ | ⟨r0, r1⟩
    · rw [htr] at hx
      by_cases hsp : isSpace c = true
      · rw [if_pos hsp] at hx; cases hx
      · rw [if_neg hsp] at hx
        simp only [List.getLast?_singleton, Option.some.injEq] at hx
        rw [← hx]
        rwa [Bool.not_eq_true] at hsp
    · rw [htr, List.getLast?_cons_cons] at hx
      apply ih
      rw [htr]
      exact hx

theorem strTrimRight_of_clean (u : Chars)
    (h : ∀ x, u.getLast? = some x → isSpace x = false) : strTrimRight u = u := by
  induction u with
  | nil => rfl
  | cons c u1 ih =>
    have h1 : ∀ x, u1.getLast? = some x → isSpace x = false := by
      intro x hx
      apply h
      rcases u1 with _ | ⟨d, u2⟩
      · cases hx
      · rw [List.getLast?_cons_cons]; exact hx
    have hrec : strTrimRight u1 = u1 := ih h1
    show (match strTrimRight u1 with
      | [] => if isSpace c then [] else [c]
      | r => c :: r) = c :: u1
    rw [hrec]
    rcases u1 with _ | ⟨d, u2⟩
    · have hc := h c (by simp)
      rw [hc]
      rfl
    · rfl

theorem strTrimRight_idem (u : Chars) : strTrimRight (strTrimRight u) = strTrimRight u :=
  strTrimRight_of_clean _ (strTrimRight_getLast u)

theorem strTrimRight_append_space {c : Char} (hc : isSpace c = true) (s : Chars) :
    strTrimRight (s ++ [c]) = strTrimRight s := by
  induction s with
  | nil =>
    show (match strTrimRight [] with
      | [] => if isSpace c then [] else [c]
      | r => c :: r) = strTrimRight []
    simp [strTrimRight, hc]
  | cons d s1 ih =>
    rw [List.cons_append]
    show (match strTrimRight (s1 ++ [c]) with
      | [] => if isSpace d then [] else [d]
      | r => d :: r) = (match strTrimRight s1 with
      | [] => if isSpace d then [] else [d]
      | r => d :: r)
    rw [ih]

theorem head_strTrimLeft (s : Chars) :
    ∀ x, (strTrimLeft s).head? = some x → isSpace x = false := by
  induction s with
  | nil => intro x hx; cases hx
  | cons c s1 ih =>
    intro x hx
    rw [strTrimLeft, List.dropWhile_cons] at hx
    by_cases hsp : isSpace c = true
    · rw [if_pos hsp] at hx
      exact ih x hx
    · rw [if_neg hsp] at hx
      simp only [List.head?_cons, Option.some.injEq] at hx
      rw [← hx]
      rwa [Bool.not_eq_true] at hsp

theorem strTrimLeft_of_clean (s : Chars)
    (h : ∀ x, s.head? = some x → isSpace x = false) : strTrimLeft s = s := by
  rcases s with _ | ⟨c, t⟩
  · rfl
  · rw [strTrimLeft, List.dropWhile_cons, if_neg]
    rw [h c rfl]
    simp

theorem prefix_head {u v : Chars} {c : Char} {t : Chars} (hp : v <+: u)
    (hv : v = c :: t) : ∃ t2, u = c :: t2 := by
  rcases hp with ⟨w, rfl⟩
  subst hv
  exact ⟨t ++ w, rfl⟩

theorem strTrim_idem (s : Chars) : strTrim (strTrim s) = strTrim s := by
  have hhead : ∀ x, (strTrim s).head? = some x → isSpace x = false := by
    intro x hx
    rcases htr : strTrim s with _ | ⟨c, t⟩
    · rw [htr] at hx; cases hx
    · rw [htr] at hx
      simp only [List.head?_cons, Option.some.injEq] at hx
      subst hx
      have hpre : strTrimRight (strTrimLeft s) <+: strTrimLeft s := strTrimRight_isPrefixOf _
      rcases prefix_head hpre htr with ⟨t2, ht2⟩
      exact head_strTrimLeft s c (by rw [ht2]; rfl)
  show strTrimRight (strTrimLeft (strTrim s)) = strTrim s
  rw [strTrimLeft_of_clean _ hhead]
  exact strTrimRight_idem _

theorem strTrim_cons_space {c : Char} (hc : isSpace c = true) (s : Chars) :
    strTrim (c :: s) = strTrim s := by
  show strTrimRight (strTrimLeft (c :: s)) = _
  rw [strTrimLeft, List.dropWhile_cons, if_pos hc]
  rfl

theorem strTrim_append_space {c : Char} (hc : isSpace c = true) (s : Chars) :
    strTrim (s ++ [c]) = strTrim s := by
  show strTrimRight (strTrimLeft (s ++ [c])) = strTrimRight (strTrimLeft s)
  induction s with
  | nil =>
    show strTrimRight (List.dropWhile isSpace [c]) = _
    simp [List.dropWhile_cons, hc, strTrimRight]
  | cons d s1 ih =>
    rw [List.cons_append, strTrimLeft, List.dropWhile_cons, strTrimLeft, List.dropWhile_cons]
    by_cases hsp : isSpace d = true
    · rw [if_pos hsp, if_pos hsp]
      exact ih
    · rw [if_neg hsp, if_neg hsp, ← List.cons_append]
      exact strTrimRight_append_space hc _

theorem strTrim_wrap (s : Chars) : strTrim ([nlc] ++ s ++ [nlc]) = strTrim s := by
  have hnl : isSpace nlc = true := by decide
  have h1 : ([nlc] ++ s ++ [nlc] : Chars) = nlc :: (s ++ [nlc]) := by simp
  rw [h1, strTrim_cons_space hnl, strTrim_append_space hnl]

theorem splitFence_fence_cons (u : Chars) : splitFence (fence ++ u) = [] :: splitFence u := by
  show splitFence (bq :: bq :: bq :: u) = [] :: splitFence u
  rw [splitFence_eq3]
  simp

theorem splitFence_mid (mid : Chars) (hcf : containsFence mid = false)
    (hlast : ∀ x, mid.getLast? = some x → x ≠ bq) :
    splitFence (mid ++ fence) = [mid, []] := by
  induction mid with
  | nil =>
    rw [List.nil_append, show fence = fence ++ [] by simp, splitFence_fence_cons]
    rfl
  | cons x m1 ih =>
    have hm1cf : containsFence m1 = false := cf_tail hcf
    have hm1last : ∀ y, m1.getLast? = some y → y ≠ bq := by
      intro y hy
      apply hlast
      rcases m1 with _ | ⟨d, m2⟩
      · cases hy
      · rw [List.getLast?_cons_cons]; exact hy
    have hrec := ih hm1cf hm1last
    rcases m1 with _ | ⟨y, m2⟩
    · have hx : x ≠ bq := hlast x (by simp)
      show splitFence (x :: bq :: bq :: [bq]) = [[x], []]
      rw [splitFence_eq3]
      have hxb : (x == bq) = false := by
        rw [Bool.eq_false_iff]
        intro hcc
        exact hx (by simpa using hcc)
      rw [hxb]
      simp only [Bool.false_and, if_false]
      rw [show (bq :: bq :: [bq] : Chars) = fence ++ [] by simp [fence],
        splitFence_fence_cons]
      rfl
    · rcases m2 with _ | ⟨z, m3⟩
      · have hy : y ≠ bq := hlast y (by simp)
        show splitFence (x :: y :: bq :: bq :: [bq]) = [[x, y], []]
        rw [splitFence_eq3]
        have hyb : (y == bq) = false := by
          rw [Bool.eq_false_iff]
          intro hcc
          exact hy (by simpa using hcc)
        rw [hyb]
        simp only [Bool.and_false, Bool.false_and, Bool.and_true, if_false]
        have : splitFence (y :: bq :: bq :: [bq]) = [[y], []] := by
          have := hrec
          rwa [show ([y] ++ fence : Chars) = y :: bq :: bq :: [bq] by simp [fence]] at this
        rw [this]
        rfl
      · rw [cf_cons, Bool.or_eq_false_iff] at hcf
        have hcond : (x == bq && y == bq && z == bq) = false := by
          have h1 := hcf.1
          rw [show ((y :: z :: m3).take 2 : Chars) = [y, z] by simp [List.take]] at h1
          cases hx : x == bq <;> cases hy : y == bq <;> cases hz : z == bq <;>
            simp_all
        show splitFence (x :: ((y :: z :: m3) ++ fence)) = [x :: y :: z :: m3, []]
        rw [show (x :: ((y :: z :: m3) ++ fence) : Chars) =
          x :: y :: z :: (m3 ++ fence) by simp, splitFence_eq3]
        rw [hcond]
        simp only [Bool.false_eq_true, if_false]
        rw [show (y :: z :: (m3 ++ fence) : Chars) = (y :: z :: m3) ++ fence by simp, hrec]
        rfl

theorem cf_trim {s : Chars} (h : containsFence s = false) :
    containsFence (strTrim s) = false :=
  cf_of_prefix (cf_dropWhile h) (strTrimRight_isPrefixOf (strTrimLeft s))

theorem startsWithFence_false_of_cf {s : Chars} (h : containsFence s = false) :
    startsWithFence s = false := by
  rcases s with _ | ⟨a, rest⟩
  · rfl
  · have h2 : (startsWithFence (a :: rest) || containsFence rest) = false := h
    exact (Bool.or_eq_false_iff.mp h2).1

theorem stripFences_of_cf {J : Chars} (h : containsFence J = false) :
    stripFences J = strTrim J := by
  unfold stripFences
  dsimp only
  rw [startsWithFence_false_of_cf (cf_trim h)]
  simp only [Bool.false_eq_true, if_false]
  exact strTrim_idem J

theorem startsWithFence_fence (u : Chars) : startsWithFence (fence ++ u) = true := by
  show startsWithFence (bq :: bq :: bq :: u) = true
  show (bq == bq && bq == bq && bq == bq) = true
  simp

theorem jsonTag_prefix_append (X : Chars) : jsonTag.isPrefixOf (jsonTag ++ X) = true := by
  rw [List.isPrefixOf_iff_prefix]
  exact List.prefix_append _ _

theorem jsonTag_drop_append (X : Chars) : (jsonTag ++ X).drop 4 = X := by
  rw [show jsonTag = ['j', 's', 'o', 'n'] from rfl]
  simp

theorem jsonTag_not_prefix_nlc (X : Chars) : jsonTag.isPrefixOf (nlc :: X) = false := by
  rw [show jsonTag = ['j', 's', 'o', 'n'] from rfl]
  show (('j' == nlc) && List.isPrefixOf ['s', 'o', 'n'] X) = false
  rw [show ('j' == nlc) = false by decide, Bool.false_and]

theorem stripFences_fenceWrap (tag : Bool) {J : Chars} (h : containsFence J = false) :
    stripFences (fenceWrap tag J) = strTrim J := by
  have hJn : containsFence (J ++ [nlc]) = false :=
    cf_append_right h (by rfl)
      (fun x hx => by
        simp only [List.head?_cons, Option.some.injEq] at hx
        subst hx; decide)
  have hswf : startsWithFence (fenceWrap tag J) = true := by
    rw [show fenceWrap tag J =
      fence ++ ((if tag then jsonTag else []) ++ [nlc] ++ J ++ [nlc] ++ fence) by
        simp [fenceWrap]]
    exact startsWithFence_fence _
  have htrimfix : strTrim (fenceWrap tag J) = fenceWrap tag J := by
    show strTrimRight (strTrimLeft (fenceWrap tag J)) = _
    rw [strTrimLeft_of_clean _ (fun x hx => by
      rw [show fenceWrap tag J =
        bq :: (bq :: bq :: ((if tag then jsonTag else []) ++ [nlc] ++ J ++ [nlc] ++ fence)) by
          simp [fenceWrap, fence]] at hx
      simp only [List.head?_cons, Option.some.injEq] at hx
      subst hx; decide)]
    exact strTrimRight_of_clean _ (fun x hx => by
      rw [show fenceWrap tag J =
        ((fence ++ (if tag then jsonTag else []) ++ [nlc] ++ J ++ [nlc] ++ [bq, bq]) ++ [bq]) by
          simp [fenceWrap, fence]] at hx
      rw [List.getLast?_concat] at hx
      cases hx; decide)
  cases tag
  · -- no json tag
    have hmid : containsFence ([nlc] ++ (J ++ [nlc])) = false :=
      cf_append_left (by rfl) hJn
        (fun x hx => by
          simp only [List.getLast?_singleton, Option.some.injEq] at hx
          subst hx; decide)
    have hmidlast : ∀ x, (([nlc] ++ (J ++ [nlc])) : Chars).getLast? = some x → x ≠ bq := by
      intro x hx
      rw [show (([nlc] ++ (J ++ [nlc])) : Chars) = ([nlc] ++ J) ++ [nlc] by simp,
        List.getLast?_concat] at hx
      cases hx; decide
    have hsplit : splitFence (fenceWrap false J) = [[], [nlc] ++ (J ++ [nlc]), []] := by
      rw [show fenceWrap false J = fence ++ (([nlc] ++ (J ++ [nlc])) ++ fence) by
        simp [fenceWrap]]
      rw [splitFence_fence_cons, splitFence_mid _ hmid hmidlast]
    unfold stripFences
    dsimp only
    rw [htrimfix, hswf]
    simp only [if_true]
    rw [hsplit]
    simp only [List.getD, List.get?, Option.getD_some]
    rw [show (([nlc] ++ (J ++ [nlc])) : Chars) = nlc :: (J ++ [nlc]) by simp]
    rw [jsonTag_not_prefix_nlc]
    simp only [Bool.false_eq_true, if_false]
    rw [show (nlc :: (J ++ [nlc]) : Chars) = [nlc] ++ J ++ [nlc] by simp]
    exact strTrim_wrap J
  · -- with json tag
    have hA : containsFence (jsonTag ++ [nlc]) = false := by decide
    have hmid : containsFence ((jsonTag ++ [nlc]) ++ (J ++ [nlc])) = false :=
      cf_append_left hA hJn
        (fun x hx => by
          rw [List.getLast?_concat] at hx
          cases hx; decide)
    have hmidlast : ∀ x, (((jsonTag ++ [nlc]) ++ (J ++ [nlc])) : Chars).getLast? = some x →
        x ≠ bq := by
      intro x hx
      rw [show (((jsonTag ++ [nlc]) ++ (J ++ [nlc])) : Chars) =
        (jsonTag ++ [nlc] ++ J) ++ [nlc] by simp, List.getLast?_concat] at hx
      cases hx; decide
    have hsplit : splitFence (fenceWrap true J) =
        [[], (jsonTag ++ [nlc]) ++ (J ++ [nlc]), []] := by
      rw [show fenceWrap true J = fence ++ (((jsonTag ++ [nlc]) ++ (J ++ [nlc])) ++ fence) by
        simp [fenceWrap]]
      rw [splitFence_fence_cons, splitFence_mid _ hmid hmidlast]
    unfold stripFences
    dsimp only
    rw [htrimfix, hswf]
    simp only [if_true]
    rw [hsplit]
    simp only [List.getD, List.get?, Option.getD_some]
    rw [show (((jsonTag ++ [nlc]) ++ (J ++ [nlc])) : Chars) =
      jsonTag ++ ([nlc] ++ (J ++ [nlc])) by simp]
    rw [jsonTag_prefix_append]
    simp only [if_true]
    rw [jsonTag_drop_append]
    rw [show (([nlc] ++ (J ++ [nlc])) : Chars) = [nlc] ++ J ++ [nlc] by simp]
    exact strTrim_wrap J

theorem llmAttempt_ok {α : Type} {validate : Chars → Option α} {raw : Chars} {v : α}
    (h : llmAttempt validate raw = .ok v) : validate (stripFences raw) = some v := by
  unfold llmAttempt at h
  split at h
  · cases h; assumption
  · cases h

theorem modelValidateJson_some {α : Type} {v : Json → Option α} {s : Chars} {a : α}
    (h : modelValidateJson v s = some a) : ∃ j, parseJson s = some j ∧ v j = some a := by
  unfold modelValidateJson at h
  split at h
  · exact ⟨_, by assumption, h⟩
  · cases h

/-! ### Claims -/

/-- Claim C1, counterexample: with a Completion Provider whose first
response fails schema validation, `llm_structured` surfaces the failure
after exactly 1 provider call — it does not retry with an amended prompt,
so the claimed second (retry) call never happens. -/
theorem claim1_counterexample :
    modelValidateJson validateExtractedFact (stripFences (lit "not json")) = none ∧
    llm_structured (fun _ => lit "not json") (modelValidateJson validateExtractedFact) =
      (Except.error (lit "ValidationError"), 1) ∧
    (1 : Nat) ≠ 2 :=
  ⟨rfl, rfl, by decide⟩

/-- Claim C1 (amended): `llm_structured` issues exactly one Completion
Provider call per invocation; when the first (and only) response fails
schema validation, the failure is surfaced immediately with no corrective
retry.  The spec's bound of at most 2 provider calls holds trivially. -/
theorem claim1_no_retry {α : Type} (provider : Nat → Chars) (validate : Chars → Option α)
    (hfail : validate (stripFences (provider 0)) = none) :
    llm_structured provider validate = (Except.error (lit "ValidationError"), 1) ∧
    (llm_structured provider validate).2 ≤ 2 := by
  have h1 : llm_structured provider validate = (Except.error (lit "ValidationError"), 1) := by
    unfold llm_structured llmAttempt
    rw [hfail]
  exact ⟨h1, by rw [h1]; exact Nat.le_succ 1⟩

/-- Witness for C1: the amended theorem applied to a concrete invalid
first response. -/
theorem claim1_witness :
    llm_structured (fun _ => lit "oops") (modelValidateJson validateExtractedFact) =
      (Except.error (lit "ValidationError"), 1) :=
  (claim1_no_retry (fun _ => lit "oops") (modelValidateJson validateExtractedFact) rfl).1

/-- Claim C2: `run_agent` either returns a fully validated `AgentAnswer`
(in particular with all confidence fields inside the declared bounds) or
surfaces the error of the first failing structured step; a Plan failure
aborts after 1 structured call, an Extract failure after 2, a Synthesize
failure after 3, so no later step runs — and the Execute step, which sits
between calls 1 and 2, has no failure case at all (its error type does
not exist: transports are absorbed inside `search_web`/`fetch_url`). -/
theorem claim2_pipeline_contract (resps : Nat → Chars) (serperKey : Chars)
    (searchT : Nat → Except Chars Json) (fetchT : Except Chars Chars)
    (extract : Chars → Chars) (query : Chars)
    (res : Except AgentError AgentAnswer) (n : Nat)
    (hrun : run_agent resps serperKey searchT fetchT extract query = (res, n)) :
    (∀ a, res = .ok a → n = 3 ∧ (0 ≤ a.confidence ∧ a.confidence ≤ 1) ∧
      ∀ f ∈ a.key_facts, 0 ≤ f.confidence ∧ f.confidence ≤ 1) ∧
    (∀ e, res = .error (.planFailed e) → n = 1) ∧
    (∀ e, res = .error (.extractFailed e) → n = 2) ∧
    (∀ e, res = .error (.synthFailed e) → n = 3) := by
  unfold run_agent at hrun
  split at hrun
  · injection hrun with h1 h2
    subst h1; subst h2
    refine ⟨?_, ?_, ?_, ?_⟩
    · intro a ha; simp at ha
    · intro e he; rfl
    · intro e he; simp at he
    · intro e he; simp at he
  · split at hrun
    · injection hrun with h1 h2
      subst h1; subst h2
      refine ⟨?_, ?_, ?_, ?_⟩
      · intro a ha; simp at ha
      · intro e he; simp at he
      · intro e he; rfl
      · intro e he; simp at he
    · split at hrun
      · injection hrun with h1 h2
        subst h1; subst h2
        refine ⟨?_, ?_, ?_, ?_⟩
        · intro a ha; simp at ha
        · intro e he; simp at he
        · intro e he; simp at he
        · intro e he; rfl
      · injection hrun with h1 h2
        subst h1; subst h2
        rename_i answer hsynth
        refine ⟨?_, ?_, ?_, ?_⟩
        · intro a ha
          cases ha
          have hval := llmAttempt_ok hsynth
          rcases modelValidateJson_some hval with ⟨j, hj, hv⟩
          have hb := validateAgentAnswer_bounds hv
          exact ⟨rfl, hb.1, hb.2⟩
        · intro e he; simp at he
        · intro e he; simp at he
        · intro e he; simp at he

/-- Witness for C2: a run with three schema-valid completions returns the
fully validated sample answer after exactly 3 structured calls, with its
confidence inside the bounds. -/
theorem claim2_witness :
    (3 : Nat) = 3 ∧ (0 ≤ sampleAnswer.confidence ∧ sampleAnswer.confidence ≤ 1) ∧
      ∀ f ∈ sampleAnswer.key_facts, 0 ≤ f.confidence ∧ f.confidence ≤ 1 := by
  have h := claim2_pipeline_contract sampleOracle (lit "k") downSearch
    (Except.ok (lit "BODY")) id (lit "q") (Except.ok sampleAnswer) 3 (by decide)
  exact h.1 sampleAnswer rfl

/-- Claim C3, counterexample: with a Search Provider that throws on every
call, a plan whose search task is itself named `"__url_fetch__"` and whose
URL fetch is enabled yields a mapping where that failed query is bound to
the fetched page text — not to the empty list the claim promises. -/
theorem claim3_counterexample :
    dictGet urlFetchKey
      (step_execute (lit "k") downSearch (Except.ok (lit "BODY")) id collidingPlan) =
      some (RawVal.fetchRes (lit "BODY")) ∧
    RawVal.fetchRes (lit "BODY") ≠ RawVal.searchRes [] := by
  refine ⟨rfl, fun hcc => ?_⟩
  cases hcc

/-- Claim C3 (amended): `search_web` returns `[]` on a raised transport
call and on any malformed body, so `step_execute` never raises; with a
Search Provider that throws on every call, every planned query maps to
the empty list in the returned mapping — except an entry literally keyed
`"__url_fetch__"`, which the URL-fetch branch overwrites with the fetched
text when the fetch condition holds. -/
theorem claim3_search_absorbs (serperKey : Chars) (hkey : serperKey ≠ [])
    (q e : Chars) (data : Json) (hbad : extractOrganic data = none)
    (plan : AgentPlan) (searchT : Nat → Except Chars Json)
    (fetchT : Except Chars Chars) (extract : Chars → Chars)
    (hdown : ∀ i, ∃ e2, searchT i = Except.error e2) :
    search_web serperKey (Except.error e) q = [] ∧
    search_web serperKey (Except.ok data) q = [] ∧
    (∀ sq ∈ plan.search_queries, ¬(fetchCond plan = true ∧ sq.query = urlFetchKey) →
      dictGet sq.query (step_execute serperKey searchT fetchT extract plan) =
        some (RawVal.searchRes [])) ∧
    (fetchCond plan = true →
      dictGet urlFetchKey (step_execute serperKey searchT fetchT extract plan) =
        some (RawVal.fetchRes (fetch_url extract fetchT (plan.target_url.getD []) 4000))) := by
  refine ⟨by simp [search_web, hkey], by simp [search_web, hkey, hbad], ?_, ?_⟩
  · intro sq hsq hnc
    rw [step_execute_get, if_neg hnc]
    apply lastVal_all_eq
    · intro p hp
      rw [execInserts_eq] at hp
      rcases List.mem_map.mp hp with ⟨pr, hpr, rfl⟩
      rcases hdown pr.1 with ⟨e2, he2⟩
      simp [search_web, hkey, he2]
    · rw [execInserts_eq, insertsFrom_keys]
      exact List.mem_map.mpr ⟨sq, hsq, rfl⟩
  · intro hfc
    rw [step_execute_get, if_pos ⟨hfc, rfl⟩]

/-- Witness for C3: the amended theorem applied to a concrete plan,
always-throwing transport and non-empty key. -/
theorem claim3_witness :
    dictGet (lit "a")
      (step_execute (lit "k") downSearch (Except.ok (lit "BODY")) id simplePlan) =
      some (RawVal.searchRes []) := by
  have h := claim3_search_absorbs (lit "k") (by simp [lit]) (lit "x") (lit "boom")
    Json.null rfl simplePlan downSearch (Except.ok (lit "BODY")) id
    (fun i => ⟨lit "connection refused", rfl⟩)
  exact h.2.2.1 ⟨lit "a", lit "r"⟩ (by simp [simplePlan])
    (fun hcc => by rw [show fetchCond simplePlan = false from rfl] at hcc; cases hcc.1)

/-- Claim C4: pydantic validation of `ExtractedFact` and `AgentAnswer`
admits only confidence values inside `[0, 1]`: every validated object has
its confidence (and, for an answer, all nested fact confidences) within
bounds, and an object whose confidence field is a number outside the
bounds is rejected by both validators. -/
theorem claim4_confidence_bounds (j : Json) :
    (∀ f, validateExtractedFact j = some f → 0 ≤ f.confidence ∧ f.confidence ≤ 1) ∧
    (∀ a, validateAgentAnswer j = some a →
      (0 ≤ a.confidence ∧ a.confidence ≤ 1) ∧
      ∀ f ∈ a.key_facts, 0 ≤ f.confidence ∧ f.confidence ≤ 1) ∧
    (∀ fields q, j = Json.obj fields →
      dictGet (lit "confidence") fields = some (Json.num q) → (q < 0 ∨ 1 < q) →
      validateExtractedFact j = none ∧ validateAgentAnswer j = none) := by
  refine ⟨fun f h => validateExtractedFact_bounds h,
    fun a h => validateAgentAnswer_bounds h,
    fun fields q hj hq hout => ?_⟩
  subst hj
  exact ⟨validateExtractedFact_rejects hq hout, validateAgentAnswer_rejects hq hout⟩

/-- Witness for C4: a fact object with confidence 2 is rejected by both
validators, and a validated fact with confidence 1/2 is within bounds. -/
theorem claim4_witness :
    (validateExtractedFact (Json.obj [(lit "fact", Json.str (lit "f")),
        (lit "source", Json.str (lit "s")), (lit "confidence", Json.num 2)]) = none ∧
      validateAgentAnswer (Json.obj [(lit "fact", Json.str (lit "f")),
        (lit "source", Json.str (lit "s")), (lit "confidence", Json.num 2)]) = none) ∧
    (0 ≤ (mkRat 1 2 : ℚ) ∧ (mkRat 1 2 : ℚ) ≤ 1) := by
  constructor
  · have h := claim4_confidence_bounds (Json.obj [(lit "fact", Json.str (lit "f")),
      (lit "source", Json.str (lit "s")), (lit "confidence", Json.num 2)])
    exact h.2.2 _ 2 rfl rfl (Or.inr (by norm_num))
  · have h := claim4_confidence_bounds (Json.obj [(lit "fact", Json.str (lit "f")),
      (lit "source", Json.str (lit "s")), (lit "confidence", Json.num (mkRat 1 2))])
    exact h.1 ⟨lit "f", lit "s", mkRat 1 2⟩ rfl

/-- Claim C5, counterexample: `fencedFactJson` validates against
`ExtractedFact` as-is, but the same text enclosed in markdown fences
fails validation, because the fence marker inside its `fact` string makes
the split pick a truncated middle chunk.  So fencing is not transparent
for every schema-valid JSON text. -/
theorem claim5_counterexample :
    (llm_structured (fun _ => fencedFactJson)
        (modelValidateJson validateExtractedFact)).1 = Except.ok fencedFact ∧
    (llm_structured (fun _ => fenceWrap true fencedFactJson)
        (modelValidateJson validateExtractedFact)).1 =
      Except.error (lit "ValidationError") := ⟨rfl, rfl⟩

/-- Claim C5 (amended): for every raw JSON text containing no
three-backquote fence marker, `llm_structured` produces the same result
whether the Completion Provider returns the text bare or enclosed in
markdown code fences, with or without the `json` language tag. -/
theorem claim5_fence_invariant {α : Type} (validate : Chars → Option α)
    (J : Chars) (tag : Bool) (h : containsFence J = false) :
    llm_structured (fun _ => fenceWrap tag J) validate =
      llm_structured (fun _ => J) validate := by
  unfold llm_structured llmAttempt
  rw [stripFences_fenceWrap tag h, stripFences_of_cf h]

/-- Witness for C5: the amended theorem applied to a concrete fence-free
fact JSON. -/
theorem claim5_witness :
    llm_structured (fun _ => fenceWrap true plainFactJson)
        (modelValidateJson validateExtractedFact) =
      llm_structured (fun _ => plainFactJson) (modelValidateJson validateExtractedFact) :=
  claim5_fence_invariant (modelValidateJson validateExtractedFact) plainFactJson true rfl

/-- Claim C6, counterexample: on the failure path `fetch_url` returns the
untruncated placeholder — here 42 characters despite `max_chars = 10` —
so the claimed length bound does not cover the failure path. -/
theorem claim6_counterexample :
    (fetch_url (fun s => s) (Except.error (lit "boom"))
      (lit "https://example.com") 10).length = 42 ∧
    ¬ (fetch_url (fun s => s) (Except.error (lit "boom"))
      (lit "https://example.com") 10).length ≤ 10 := ⟨rfl, by decide⟩

/-- Claim C6 (amended): on the success path `fetch_url` truncates the
extracted text to at most `max_chars` characters; on the failure path it
returns the descriptive placeholder `[ERROR fetching url: e]`, whose
length is not bounded by `max_chars`. -/
theorem claim6_truncation (extract : Chars → Chars) (transport : Except Chars Chars)
    (url : Chars) (max_chars : Nat) :
    (∀ body, transport = Except.ok body →
      (fetch_url extract transport url max_chars).length ≤ max_chars) ∧
    (∀ e, transport = Except.error e →
      fetch_url extract transport url max_chars = fetchErrorText url e) := by
  constructor
  · intro body hb
    subst hb
    show ((extract body).take max_chars).length ≤ max_chars
    rw [List.length_take]
    exact Nat.min_le_left _ _
  · intro e he
    subst he
    rfl

/-- Witness for C6: the amended theorem applied to a concrete successful
fetch. -/
theorem claim6_witness :
    (fetch_url (fun s => s) (Except.ok (lit "BODY")) (lit "u") 2).length ≤ 2 :=
  (claim6_truncation (fun s => s) (Except.ok (lit "BODY")) (lit "u") 2).1 (lit "BODY") rfl

/-- Claim C7, counterexample: a schema-valid completion whose `sources`
list repeats the same URL validates and is returned unchanged by
`step_synthesize`, so the returned answer's source list is not
deduplicated. -/
theorem claim7_counterexample :
    step_synthesize dupSourcesJson (lit "q") [] = Except.ok dupSourcesAnswer ∧
    ¬ dupSourcesAnswer.sources.Nodup := ⟨rfl, by decide⟩

/-- Claim C7 (amended): the Synthesize step deduplicates the known-source
list it embeds in its prompt (`list({f.source for f in facts})`), but the
returned answer's `sources` field is exactly whatever the validated
completion contained, with no deduplication enforced: a duplicate-bearing
answer can be returned. -/
theorem claim7_sources (facts : List ExtractedFact) (query : Chars) :
    (synthSources facts).Nodup ∧
    ∃ resp a, step_synthesize resp query facts = Except.ok a ∧ ¬ a.sources.Nodup :=
  ⟨List.nodup_dedup _, dupSourcesJson, dupSourcesAnswer, rfl, by decide⟩

/-- Claim C8, counterexample: with `GROQ_API_KEY` absent from the
environment, module startup does not fail — it silently substitutes the
placeholder string and constructs the client successfully, so no
configuration error precedes a pipeline run. -/
theorem claim8_counterexample :
    agentStartup (fun _ => none) = Except.ok (lit "YOUR_GROQ_API_KEY_HERE") := rfl

/-- Claim C8 (amended): for every environment, agent startup succeeds —
`os.getenv` falls back to the placeholder `YOUR_GROQ_API_KEY_HERE` when
the variable is missing and the client constructor accepts any string —
so a missing Completion Provider credential is never detected at startup
and produces no configuration error before a pipeline run. -/
theorem claim8_no_failfast (env : Chars → Option Chars) :
    agentStartup env = Except.ok (groqApiKey env) ∧
    groqApiKey env = (env (lit "GROQ_API_KEY")).getD (lit "YOUR_GROQ_API_KEY_HERE") :=
  ⟨rfl, rfl⟩

/-- Claim C9: with an empty `SERPER_API_KEY`, `search_web` never consults
the transport and returns exactly one mock result with title
`Mock Result` and link `https://example.com`, for every query and every
transport behaviour. -/
theorem claim9_mock_result (resp : Except Chars Json) (query : Chars) :
    search_web [] resp query =
      [⟨Json.str (lit "Mock Result"),
        Json.str (lit "Mock search result for '" ++ query ++ lit "'"),
        Json.str (lit "https://example.com")⟩] := rfl

/-- Claim C10, counterexample: in a plan with two search tasks sharing
the query `"__url_fetch__"` and the URL fetch enabled, the later task's
search results do not survive in the mapping — the fetch branch
overwrites the shared key with the fetched page text. -/
theorem claim10_counterexample :
    dictGet urlFetchKey
      (step_execute (lit "k") downSearch (Except.ok (lit "BODY")) id collidingPlan2) =
      some (RawVal.fetchRes (lit "BODY")) ∧
    some (RawVal.fetchRes (lit "BODY")) ≠
      some (RawVal.searchRes (search_web (lit "k") (downSearch 1) urlFetchKey)) := by
  refine ⟨rfl, fun hcc => ?_⟩
  exact RawVal.noConfusion (Option.some.inj hcc)

/-- Claim C10 (amended): the mapping returned by `step_execute` has as
key set exactly the distinct planned query strings, together with
`"__url_fetch__"` when the fetch condition holds; each key occurs exactly
once; a query shared by several tasks is bound to the search results of
the last such task — unless that query is `"__url_fetch__"` and the fetch
condition holds, in which case the fetch result overwrites it. -/
theorem claim10_execute_mapping (serperKey : Chars) (searchT : Nat → Except Chars Json)
    (fetchT : Except Chars Chars) (extract : Chars → Chars) (plan : AgentPlan) :
    (∀ k, (dictGet k (step_execute serperKey searchT fetchT extract plan)).isSome = true ↔
      (k ∈ plan.search_queries.map (fun t => t.query) ∨
        (fetchCond plan = true ∧ k = urlFetchKey))) ∧
    (dictKeys (step_execute serperKey searchT fetchT extract plan)).Nodup ∧
    (∀ i sq, plan.search_queries[i]? = some sq →
      (∀ j sq2, plan.search_queries[j]? = some sq2 → sq2.query = sq.query → j ≤ i) →
      ¬(fetchCond plan = true ∧ sq.query = urlFetchKey) →
      dictGet sq.query (step_execute serperKey searchT fetchT extract plan) =
        some (RawVal.searchRes (search_web serperKey (searchT i) sq.query))) ∧
    (fetchCond plan = true →
      dictGet urlFetchKey (step_execute serperKey searchT fetchT extract plan) =
        some (RawVal.fetchRes (fetch_url extract fetchT (plan.target_url.getD []) 4000))) := by
  refine ⟨step_execute_isSome_iff serperKey searchT fetchT extract plan,
    step_execute_keys_nodup serperKey searchT fetchT extract plan, ?_, ?_⟩
  · intro i sq hi hlast hnc
    rw [step_execute_get, if_neg hnc, execInserts_eq]
    have h := lastVal_insertsFrom serperKey searchT plan.search_queries 0 i sq hi hlast
    rwa [Nat.zero_add] at h
  · intro hfc
    rw [step_execute_get, if_pos ⟨hfc, rfl⟩]

/-- Witness for C10: the amended theorem applied to a concrete
single-task plan binds the task's query to its search results. -/
theorem claim10_witness :
    dictGet (lit "b") (step_execute (lit "k") downSearch (Except.ok (lit "BODY")) id
      ⟨lit "g", [⟨lit "b", lit "r"⟩], false, none⟩) =
      some (RawVal.searchRes (search_web (lit "k") (downSearch 0) (lit "b"))) := by
  have h := claim10_execute_mapping (lit "k") downSearch (Except.ok (lit "BODY")) id
    ⟨lit "g", [⟨lit "b", lit "r"⟩], false, none⟩
  refine h.2.2.1 0 ⟨lit "b", lit "r"⟩ rfl ?_ ?_
  · intro j sq2 hj hq
    cases j with
    | zero => exact Nat.le_refl 0
    | succ j2 => simp at hj
  · intro hcc
    rw [show fetchCond ⟨lit "g", [⟨lit "b", lit "r"⟩], false, none⟩ = false from rfl] at hcc
    cases hcc.1
